import Mathlib

/-!
Verification of the aggregation core of the group-planner repository
(src/app.py, function compute_suggestion, lines 99-214).

Embedding conventions:
- Times of day are modelled as minutes since midnight (Nat). The Python code
  stores zero-padded "HH:MM" strings and compares them after strptime parsing;
  on well-formed times the lexicographic order of the strings used at line 127
  agrees with the chronological order, so sorted()[0] / sorted()[-1] are the
  minimum / maximum modelled below by listMin / listMax.
- Python str.strip and str.lower are modelled by pstrip / plower over the
  character list of the string (ASCII case folding, which covers the label
  alphabet of this application).
- The Python dict used for grouping (line 105) and for votes (line 183)
  preserves insertion order (a documented guarantee since Python 3.7); it is
  modelled by an ordered association list updated in place.
- list.sort(key=..., reverse=True) (lines 179 and 194) is a stable sort that
  keeps the original relative order of elements whose keys tie; it is modelled
  by the stable List.insertionSort with the reversed comparator.
- The while loop building the timeline (lines 137-140) is modelled by the
  recursive buildTimeline; the block-merging scan (lines 163-173) by the
  accumulator recursion blocksAux, whose state is the run currently open.
-/

/-- TIME_STEP_MINUTES = 30 (src/app.py line 9). -/
def TIME_STEP_MINUTES : Nat := 30

/-- One availability record as handed to compute_suggestion by
get_day_records: name, start_time, end_time (minutes since midnight) and
preferred_event (raw label text; the empty string models a missing label,
matching `preferred_event or ""` at line 76). The note field is never read by
compute_suggestion and is omitted. -/
structure Record where
  name : String
  start_time : Nat
  end_time : Nat
  preferred_event : String
deriving DecidableEq

/-- The per-person entry of the by_person dict (lines 105-112):
a list of (start, end) slots and a list of stripped event labels. -/
structure PersonInfo where
  name : String
  slots : List (Nat × Nat)
  events : List String
deriving DecidableEq

/-- The dictionary returned at lines 208-214. endTime stands for the
key "end"; start/endTime carry minutes instead of strftime("%H:%M") text. -/
structure Suggestion where
  max_free : Nat
  total_people : Nat
  start : Nat
  endTime : Nat
  event : String
deriving DecidableEq

/-- Python str.strip on a character list: drop leading and trailing
whitespace. -/
def stripList (l : List Char) : List Char :=
  ((l.dropWhile Char.isWhitespace).reverse.dropWhile Char.isWhitespace).reverse

/-- Python str.strip. -/
def pstrip (s : String) : String := String.mk (stripList s.data)

/-- Python str.lower (ASCII case folding). -/
def plower (s : String) : String := String.mk (s.data.map Char.toLower)

/-- One step of the grouping loop at lines 106-112: insert a record into the
ordered by_person structure. The slot is always appended; the event label is
appended stripped, and only when the raw label is non-empty (Python truthiness
of r["preferred_event"] at line 111). -/
def addRecord (acc : List PersonInfo) (r : Record) : List PersonInfo :=
  if acc.any (fun p => p.name = r.name) then
    acc.map (fun p =>
      if p.name = r.name then
        { p with
          slots := p.slots ++ [(r.start_time, r.end_time)],
          events := if r.preferred_event = "" then p.events
                    else p.events ++ [pstrip r.preferred_event] }
      else p)
  else
    acc ++ [{ name := r.name,
              slots := [(r.start_time, r.end_time)],
              events := if r.preferred_event = "" then []
                        else [pstrip r.preferred_event] }]

/-- The by_person dict of lines 104-112, as an insertion-ordered list. -/
def groupByPerson (records : List Record) : List PersonInfo :=
  records.foldl addRecord []

/-- all_times (lines 117-122): every slot boundary of every person, in
scan order. -/
def allTimes (people : List PersonInfo) : List Nat :=
  people.flatMap (fun info => info.slots.flatMap (fun se => [se.1, se.2]))

/-- sorted(all_times)[0] (line 128): the least element of a list of minutes
(0 on the empty list, which compute_suggestion never reaches). -/
def listMin : List Nat → Nat
  | [] => 0
  | t :: ts => ts.foldl Nat.min t

/-- sorted(all_times)[-1] (line 129): the greatest element. -/
def listMax : List Nat → Nat
  | [] => 0
  | t :: ts => ts.foldl Nat.max t

/-- start_of_day for a record list. -/
def dayStartOf (records : List Record) : Nat :=
  listMin (allTimes (groupByPerson records))

/-- end_of_day for a record list. -/
def dayEndOf (records : List Record) : Nat :=
  listMax (allTimes (groupByPerson records))

/-- The while loop of lines 136-140: step starts from current while
current + step <= end_of_day. -/
def buildTimeline (current stop : Nat) : List Nat :=
  if _h : current + TIME_STEP_MINUTES ≤ stop then
    current :: buildTimeline (current + TIME_STEP_MINUTES) stop
  else
    []
termination_by stop - current
decreasing_by
  have h30 : TIME_STEP_MINUTES = 30 := rfl
  omega

/-- The timeline computed for a record list. -/
def timelineOf (records : List Record) : List Nat :=
  buildTimeline (dayStartOf records) (dayEndOf records)

/-- Lines 151-156: a person is free in step [t, t+W) when one of the slots
fully contains the step (s <= t and e >= t + W); the break at line 156 makes
this an existence test over the slots of the person. -/
def personFree (info : PersonInfo) (t : Nat) : Bool :=
  info.slots.any (fun se => se.1 ≤ t && t + TIME_STEP_MINUTES ≤ se.2)

/-- Lines 147-157: the number of people free in step [t, t+W); each person
counts at most once. -/
def freeCount (people : List PersonInfo) (t : Nat) : Nat :=
  people.countP (fun info => personFree info t)

/-- free_counts (line 146-157). -/
def freeCountsOf (records : List Record) : List Nat :=
  (timelineOf records).map (freeCount (groupByPerson records))

/-- max_free = max(free_counts) (line 159); 0 on the empty list. -/
def maxFreeOf (records : List Record) : Nat :=
  (freeCountsOf records).foldl Nat.max 0

/-- The scan of lines 163-173 over (step start, coverage) pairs.
cur = some (st, la) means a run of steps with coverage m is open, started at
st, whose last seen step starts at la; leaving the run (or exhausting the
timeline) emits the block [st, la + W). -/
def blocksAux (m : Nat) (cur : Option (Nat × Nat)) :
    List (Nat × Nat) → List (Nat × Nat)
  | [] =>
    match cur with
    | none => []
    | some (st, la) => [(st, la + TIME_STEP_MINUTES)]
  | (t, c) :: rest =>
    if c = m then
      match cur with
      | none => blocksAux m (some (t, t)) rest
      | some (st, _) => blocksAux m (some (st, t)) rest
    else
      match cur with
      | none => blocksAux m none rest
      | some (st, la) => (st, la + TIME_STEP_MINUTES) :: blocksAux m none rest

/-- best_blocks (lines 163-173). -/
def buildBlocks (m : Nat) (steps : List (Nat × Nat)) : List (Nat × Nat) :=
  blocksAux m none steps

/-- The best_blocks list computed for a record list. -/
def bestBlocksOf (records : List Record) : List (Nat × Nat) :=
  buildBlocks (maxFreeOf records) ((timelineOf records).zip (freeCountsOf records))

/-- Duration of a block [start, end). -/
def blockDur (b : Nat × Nat) : Nat := b.2 - b.1

/-- Lines 179-180: best_blocks.sort(key=lambda b: b[1]-b[0], reverse=True)
followed by [0]. Python sort is stable, so the modelled stable insertion
sort with the reversed comparator produces the same list. -/
def pickBlock (blocks : List (Nat × Nat)) : Option (Nat × Nat) :=
  (List.insertionSort (fun a b => b.2 - b.1 ≤ a.2 - a.1) blocks).head?

/-- votes[key] = votes.get(key, 0) + 1 (line 190) on the insertion-ordered
association list. -/
def addVote (votes : List (String × Nat)) (key : String) : List (String × Nat) :=
  if votes.any (fun kv => kv.1 = key) then
    votes.map (fun kv => if kv.1 = key then (kv.1, kv.2 + 1) else kv)
  else
    votes ++ [(key, 1)]

/-- The body of the vote loop (lines 185-190): strip the label, skip empty,
tally under the lowercased key. -/
def voteStep (votes : List (String × Nat)) (ev : String) : List (String × Nat) :=
  if pstrip ev = "" then votes else addVote votes (plower (pstrip ev))

/-- The votes dict (lines 183-190), built over every stored event label in
by_person scan order. -/
def tallyVotes (people : List PersonInfo) : List (String × Nat) :=
  (people.flatMap PersonInfo.events).foldl voteStep []

/-- Line 194: sorted(votes.items(), key=lambda kv: kv[1], reverse=True)[0],
modelled by the head of the stable descending sort. -/
def topVote (votes : List (String × Nat)) : Option (String × Nat) :=
  (List.insertionSort (fun (a b : String × Nat) => b.2 ≤ a.2) votes).head?

/-- The recovery loop of lines 196-203: walk the people in order and return
the stripped form of the first stored label whose stripped lowercase form is
the winning key. A hit that strips to the empty string is falsy in Python
(line 202 does not break on it and line 204 ignores it), hence the recursion
continues in that case. -/
def findPretty (topKey : String) : List PersonInfo → Option String
  | [] => none
  | p :: ps =>
    match p.events.find? (fun ev => plower (pstrip ev) = topKey) with
    | some ev => if pstrip ev = "" then findPretty topKey ps else some (pstrip ev)
    | none => findPretty topKey ps

/-- Lines 182-206: the event chosen for display. -/
def eventVote (people : List PersonInfo) : String :=
  let votes := tallyVotes people
  if votes.isEmpty then "No clear winner"
  else
    match topVote votes with
    | none => "No clear winner"
    | some top =>
      match findPretty top.1 people with
      | some pretty => pretty
      | none => top.1

/-- compute_suggestion (lines 99-214). Every early return None of the source
is one of the guards; the final dictionary is the Suggestion value. The
match on pickBlock mirrors best_blocks[0], taken after the emptiness guard of
line 175, so its none branch is unreachable. -/
def compute_suggestion (records : List Record) : Option Suggestion :=
  if records.isEmpty then none
  else if (groupByPerson records).isEmpty then none
  else if (allTimes (groupByPerson records)).isEmpty then none
  else if dayEndOf records ≤ dayStartOf records then none
  else if (timelineOf records).isEmpty then none
  else if maxFreeOf records = 0 then none
  else if (bestBlocksOf records).isEmpty then none
  else
    match pickBlock (bestBlocksOf records) with
    | none => none
    | some best =>
      some { max_free := maxFreeOf records
             total_people := (groupByPerson records).length
             start := best.1
             endTime := best.2
             event := eventVote (groupByPerson records) }

/-! ## Timeline characterization -/

/-- The while loop of lines 136-140 produces the arithmetic progression
current, current + W, ... with (stop - current) / W terms. -/
theorem buildTimeline_eq_range (stop current : Nat) :
    buildTimeline current stop =
      (List.range ((stop - current) / TIME_STEP_MINUTES)).map
        (fun i => current + TIME_STEP_MINUTES * i) := by
  have H : ∀ d current, stop - current ≤ d →
      buildTimeline current stop =
        (List.range ((stop - current) / TIME_STEP_MINUTES)).map
          (fun i => current + TIME_STEP_MINUTES * i) := by
    intro d
    induction d with
    | zero =>
      intro current hle
      have h30 : TIME_STEP_MINUTES = 30 := rfl
      rw [buildTimeline, dif_neg (by omega)]
      have hz : (stop - current) / TIME_STEP_MINUTES = 0 := by rw [h30]; omega
      rw [hz]
      simp
    | succ d ih =>
      intro current hle
      have h30 : TIME_STEP_MINUTES = 30 := rfl
      by_cases h : current + TIME_STEP_MINUTES ≤ stop
      · rw [buildTimeline, dif_pos h]
        rw [ih (current + TIME_STEP_MINUTES) (by omega)]
        have hn : (stop - current) / TIME_STEP_MINUTES
            = (stop - (current + TIME_STEP_MINUTES)) / TIME_STEP_MINUTES + 1 := by
          rw [h30] at h ⊢; omega
        rw [hn, List.range_succ_eq_map]
        simp only [List.map_cons, List.map_map, Nat.mul_zero, Nat.add_zero]
        refine congrArg _ (List.map_congr_left ?_)
        intro i _
        simp only [Function.comp]
        rw [h30]
        omega
      · rw [buildTimeline, dif_neg h]
        have hz : (stop - current) / TIME_STEP_MINUTES = 0 := by
          rw [h30] at h ⊢; omega
        rw [hz]; simp
  exact H (stop - current) current (Nat.le_refl _)

/-! ## C1: the end-to-end scenario -/

/-- Alice 09:00-12:00 "Picnic" (540-720 minutes). -/
def aliceRec : Record := { name := "Alice", start_time := 540, end_time := 720, preferred_event := "Picnic" }

/-- Bob 10:00-11:00 "Picnic" (600-660 minutes). -/
def bobRec : Record := { name := "Bob", start_time := 600, end_time := 660, preferred_event := "Picnic" }

/-- Carol 10:30-11:30 "Hiking" (630-690 minutes). -/
def carolRec : Record := { name := "Carol", start_time := 630, end_time := 690, preferred_event := "Hiking" }

/-- The record list of the end-to-end scenario of the spec. -/
def demoRecords : List Record := [aliceRec, bobRec, carolRec]

/-- C1: on the Alice/Bob/Carol input the timeline runs 09:00-12:00 in
30-minute steps (starts 540..690), the per-step coverage is
[1, 1, 2, 3, 2, 1] (that is, 1 on [09:00,10:00), 2 on [10:00,10:30),
3 on [10:30,11:00), 2 on [11:00,11:30), 1 on [11:30,12:00)), and the result
is the window 10:30-11:00 (630-660) with coverage 3, total_people 3 and
event "Picnic". -/
theorem C1_end_to_end_scenario :
    timelineOf demoRecords = [540, 570, 600, 630, 660, 690] ∧
    freeCountsOf demoRecords = [1, 1, 2, 3, 2, 1] ∧
    compute_suggestion demoRecords =
      some { max_free := 3, total_people := 3, start := 630, endTime := 660,
             event := "Picnic" } := by
  refine ⟨?_, ?_, ?_⟩
  · rw [timelineOf, buildTimeline_eq_range]; decide
  · rw [freeCountsOf, timelineOf, buildTimeline_eq_range]; decide
  · rw [compute_suggestion]
    simp only [bestBlocksOf, maxFreeOf, freeCountsOf, timelineOf, buildTimeline_eq_range]
    decide

/-! ## Folded max / min helpers -/

theorem foldl_max_eq_init_or_mem (l : List Nat) :
    ∀ a, l.foldl Nat.max a = a ∨ l.foldl Nat.max a ∈ l := by
  induction l with
  | nil => intro a; left; rfl
  | cons x xs ih =>
    intro a
    rcases ih (Nat.max a x) with h | h
    · rw [List.foldl_cons, h]
      rcases Nat.le_total a x with hm | hm
      · right
        have hmx : Nat.max a x = x := Nat.max_eq_right hm
        rw [hmx]
        exact List.mem_cons_self x xs
      · left
        have hmx : Nat.max a x = a := Nat.max_eq_left hm
        rw [hmx]
    · right; exact List.mem_cons_of_mem x h

theorem le_foldl_max (l : List Nat) : ∀ a, a ≤ l.foldl Nat.max a := by
  induction l with
  | nil => intro a; exact Nat.le_refl a
  | cons x xs ih =>
    intro a
    exact Nat.le_trans (Nat.le_max_left a x) (ih (Nat.max a x))

theorem mem_le_foldl_max (l : List Nat) : ∀ a x, x ∈ l → x ≤ l.foldl Nat.max a := by
  induction l with
  | nil => intro a x hx; cases hx
  | cons y ys ih =>
    intro a x hx
    rcases List.mem_cons.mp hx with h | h
    · subst h
      exact Nat.le_trans (Nat.le_max_right a x) (le_foldl_max ys (Nat.max a x))
    · exact ih (Nat.max a y) x h

theorem foldl_max_le (l : List Nat) :
    ∀ a B, a ≤ B → (∀ x ∈ l, x ≤ B) → l.foldl Nat.max a ≤ B := by
  induction l with
  | nil => intro a B ha _; exact ha
  | cons x xs ih =>
    intro a B ha hall
    refine ih (Nat.max a x) B (Nat.max_le.mpr ⟨ha, hall x (List.mem_cons_self x xs)⟩) ?_
    intro y hy
    exact hall y (List.mem_cons_of_mem x hy)

theorem foldl_min_le_init (l : List Nat) : ∀ a, l.foldl Nat.min a ≤ a := by
  induction l with
  | nil => intro a; exact Nat.le_refl a
  | cons x xs ih =>
    intro a
    exact Nat.le_trans (ih (Nat.min a x)) (Nat.min_le_left a x)

theorem foldl_min_le_mem (l : List Nat) : ∀ a x, x ∈ l → l.foldl Nat.min a ≤ x := by
  induction l with
  | nil => intro a x hx; cases hx
  | cons y ys ih =>
    intro a x hx
    rcases List.mem_cons.mp hx with h | h
    · subst h
      exact Nat.le_trans (foldl_min_le_init ys (Nat.min a x)) (Nat.min_le_right a x)
    · exact ih (Nat.min a y) x h

/-- listMin bounds every element from below. -/
theorem listMin_le {l : List Nat} {x : Nat} (hx : x ∈ l) : listMin l ≤ x := by
  cases l with
  | nil => cases hx
  | cons t ts =>
    rw [listMin]
    rcases List.mem_cons.mp hx with h | h
    · subst h
      exact foldl_min_le_init ts x
    · exact foldl_min_le_mem ts t x h

/-- listMax bounds every element from above. -/
theorem le_listMax {l : List Nat} {x : Nat} (hx : x ∈ l) : x ≤ listMax l := by
  cases l with
  | nil => cases hx
  | cons t ts =>
    rw [listMax]
    rcases List.mem_cons.mp hx with h | h
    · subst h; exact le_foldl_max ts x
    · exact mem_le_foldl_max ts t x h

/-! ## Invariants of the grouping fold -/

theorem addRecord_length_le (acc : List PersonInfo) (r : Record) :
    acc.length ≤ (addRecord acc r).length := by
  rw [addRecord]
  split
  · rw [List.length_map]
  · rw [List.length_append]
    exact Nat.le_add_right _ _

theorem length_le_foldl_addRecord (rs : List Record) :
    ∀ acc : List PersonInfo, acc.length ≤ (rs.foldl addRecord acc).length := by
  induction rs with
  | nil => intro acc; exact Nat.le_refl _
  | cons r rs ih =>
    intro acc
    exact Nat.le_trans (addRecord_length_le acc r) (ih (addRecord acc r))

/-- A non-empty record list groups to a non-empty people list. -/
theorem groupByPerson_ne_nil {records : List Record} (h : records ≠ []) :
    groupByPerson records ≠ [] := by
  cases records with
  | nil => exact absurd rfl h
  | cons r rs =>
    rw [groupByPerson, List.foldl_cons]
    intro hnil
    have h1 := length_le_foldl_addRecord rs (addRecord [] r)
    rw [hnil] at h1
    have h2 : 1 ≤ (addRecord [] r).length := by
      rw [addRecord]
      simp
    rw [List.length_nil] at h1
    omega

/-- Every person in the grouped structure has at least one slot. -/
theorem slots_ne_nil_of_mem_groupByPerson {records : List Record} :
    ∀ p ∈ groupByPerson records, p.slots ≠ [] := by
  rw [groupByPerson]
  have H : ∀ (rs : List Record) (acc : List PersonInfo),
      (∀ p ∈ acc, p.slots ≠ []) → ∀ p ∈ rs.foldl addRecord acc, p.slots ≠ [] := by
    intro rs
    induction rs with
    | nil => intro acc hacc; exact hacc
    | cons r rs ih =>
      intro acc hacc
      rw [List.foldl_cons]
      refine ih (addRecord acc r) ?_
      intro p hp
      rw [addRecord] at hp
      split at hp
      · rcases List.mem_map.mp hp with ⟨q, hq, hpq⟩
        by_cases hname : q.name = r.name
        · rw [if_pos hname] at hpq
          subst hpq
          simp
        · rw [if_neg hname] at hpq
          subst hpq
          exact hacc q hq
      · rcases List.mem_append.mp hp with hq | hq
        · exact hacc p hq
        · rcases List.mem_singleton.mp hq with rfl
          simp
  exact H records [] (by intro p hp; cases hp)

/-- A non-empty people list with non-empty slot lists yields boundary
times. -/
theorem allTimes_ne_nil {people : List PersonInfo} (hne : people ≠ [])
    (hslots : ∀ p ∈ people, p.slots ≠ []) : allTimes people ≠ [] := by
  cases people with
  | nil => exact absurd rfl hne
  | cons p ps =>
    rw [allTimes]
    have hp := hslots p (List.mem_cons_self p ps)
    cases hsl : p.slots with
    | nil => exact absurd hsl hp
    | cons se rest =>
      simp [List.flatMap_cons, hsl]

/-! ## Block scan facts -/

theorem blocksAux_ne_nil_some (m : Nat) :
    ∀ (L : List (Nat × Nat)) (st la : Nat), blocksAux m (some (st, la)) L ≠ [] := by
  intro L
  induction L with
  | nil => intro st la; rw [blocksAux]; simp
  | cons tc rest ih =>
    intro st la
    rw [blocksAux]
    by_cases h : tc.2 = m
    · simp only [h, if_pos rfl]
      exact ih st tc.1
    · simp only [if_neg h]
      simp
  
theorem blocksAux_ne_nil_of_mem (m : Nat) :
    ∀ (L : List (Nat × Nat)), (∃ tc ∈ L, tc.2 = m) →
      ∀ cur, blocksAux m cur L ≠ [] := by
  intro L
  induction L with
  | nil => intro h; rcases h with ⟨tc, htc, _⟩; cases htc
  | cons tc rest ih =>
    intro h cur
    rcases h with ⟨uc, huc, hucm⟩
    rcases List.mem_cons.mp huc with heq | hmem
    · subst heq
      cases cur with
      | none =>
        rw [blocksAux, if_pos hucm]
        exact blocksAux_ne_nil_some m rest uc.1 uc.1
      | some p =>
        rw [blocksAux]
        rcases p with ⟨st, la⟩
        rw [if_pos hucm]
        exact blocksAux_ne_nil_some m rest st uc.1
    · cases cur with
      | none =>
        rw [blocksAux]
        by_cases hc : tc.2 = m
        · rw [if_pos hc]
          exact blocksAux_ne_nil_some m rest tc.1 tc.1
        · rw [if_neg hc]
          exact ih ⟨uc, hmem, hucm⟩ none
      | some p =>
        rcases p with ⟨st, la⟩
        rw [blocksAux]
        by_cases hc : tc.2 = m
        · rw [if_pos hc]
          exact blocksAux_ne_nil_some m rest st tc.1
        · rw [if_neg hc]
          simp

/-! ## Reaching the final branch of compute_suggestion -/

theorem zip_map_self (f : Nat → Nat) (l : List Nat) :
    l.zip (l.map f) = l.map (fun t => (t, f t)) := by
  have h := List.zip_map' id f l
  rw [List.map_id] at h
  exact h

/-- A non-zero maximum is attained by one of the coverage values. -/
theorem maxFreeOf_mem {records : List Record} (h : maxFreeOf records ≠ 0) :
    maxFreeOf records ∈ freeCountsOf records := by
  rcases foldl_max_eq_init_or_mem (freeCountsOf records) 0 with h0 | hmem
  · exact absurd h0 h
  · exact hmem

theorem exists_step_with_maxFree {records : List Record}
    (h : maxFreeOf records ≠ 0) :
    ∃ tc ∈ (timelineOf records).zip (freeCountsOf records),
      tc.2 = maxFreeOf records := by
  have hmem := maxFreeOf_mem h
  rw [freeCountsOf] at hmem
  rcases List.mem_map.mp hmem with ⟨t, ht, hft⟩
  refine ⟨(t, maxFreeOf records), ?_, rfl⟩
  rw [show freeCountsOf records = (timelineOf records).map (freeCount (groupByPerson records)) from rfl]
  rw [zip_map_self]
  rcases List.mem_map.mp (List.mem_map_of_mem (fun u => (u, freeCount (groupByPerson records) u)) ht) with ⟨u, hu, huv⟩
  rw [← hft]
  exact List.mem_map_of_mem (fun u => (u, freeCount (groupByPerson records) u)) ht

/-- When the maximum coverage is positive, the block list is non-empty. -/
theorem bestBlocksOf_ne_nil {records : List Record}
    (h : maxFreeOf records ≠ 0) : bestBlocksOf records ≠ [] := by
  rw [bestBlocksOf, buildBlocks]
  exact blocksAux_ne_nil_of_mem _ _ (exists_step_with_maxFree h) none

theorem insertionSort_ne_nil {α : Type} (r : α → α → Prop) [DecidableRel r]
    {l : List α} (h : l ≠ []) : List.insertionSort r l ≠ [] := by
  intro hn
  have hp : l.Perm [] := by
    rw [← hn]
    exact (List.perm_insertionSort r l).symm
  exact h (List.Perm.eq_nil hp)

theorem pickBlock_isSome {blocks : List (Nat × Nat)} (h : blocks ≠ []) :
    ∃ b, pickBlock blocks = some b := by
  rw [pickBlock]
  cases hs : List.insertionSort (fun a b => b.2 - b.1 ≤ a.2 - a.1) blocks with
  | nil => exact absurd hs (insertionSort_ne_nil _ h)
  | cons b bs => exact ⟨b, rfl⟩

/-- Inversion of a successful compute_suggestion run: no guard fired, a
best block was picked, and the suggestion fields are the pipeline values. -/
theorem compute_suggestion_some_elim {records : List Record} {s : Suggestion}
    (h : compute_suggestion records = some s) :
    records ≠ [] ∧ ¬ dayEndOf records ≤ dayStartOf records ∧
    timelineOf records ≠ [] ∧ maxFreeOf records ≠ 0 ∧
    ∃ best, pickBlock (bestBlocksOf records) = some best ∧
      s.max_free = maxFreeOf records ∧
      s.total_people = (groupByPerson records).length ∧
      s.start = best.1 ∧ s.endTime = best.2 ∧
      s.event = eventVote (groupByPerson records) := by
  rw [compute_suggestion] at h
  split_ifs at h with h1 h2 h3 h4 h5 h6 h7
  cases hp : pickBlock (bestBlocksOf records) with
  | none =>
    rw [hp] at h
    exact absurd h (by simp)
  | some best =>
    rw [hp] at h
    simp only [Option.some.injEq] at h
    refine ⟨by simpa using h1, h4, by simpa using h5, h6, best, rfl, ?_, ?_, ?_, ?_, ?_⟩
    all_goals rw [← h]

/-! ## C6: no-suggestion characterization -/

/-- The none result happens exactly on the degenerate conditions. -/
theorem compute_suggestion_none_iff (records : List Record) :
    compute_suggestion records = none ↔
      (records = [] ∨ dayEndOf records ≤ dayStartOf records ∨
       timelineOf records = [] ∨ maxFreeOf records = 0) := by
  constructor
  · intro h
    rw [compute_suggestion] at h
    split_ifs at h with h1 h2 h3 h4 h5 h6 h7
    · left; simpa using h1
    · exfalso
      exact groupByPerson_ne_nil (by simpa using h1) (by simpa using h2)
    · exfalso
      refine allTimes_ne_nil (groupByPerson_ne_nil (by simpa using h1) : groupByPerson records ≠ [])
        slots_ne_nil_of_mem_groupByPerson ?_
      simpa using h3
    · right; left; exact h4
    · right; right; left; simpa using h5
    · right; right; right; exact h6
    · exact absurd (bestBlocksOf_ne_nil h6) (by simpa using h7)
    · exfalso
      rcases pickBlock_isSome ((by simpa using h7 : bestBlocksOf records ≠ [])) with ⟨b, hb⟩
      rw [hb] at h
      exact absurd h (by simp)
  · intro hdeg
    rw [compute_suggestion]
    split_ifs with h1 h2 h3 h4 h5 h6 h7
    · rfl
    · rfl
    · rfl
    · rfl
    · rfl
    · rfl
    · rfl
    · exfalso
      rcases hdeg with hd | hd | hd | hd
      · exact h1 (by simp [hd])
      · exact h4 hd
      · exact h5 (by simp [hd])
      · exact h6 hd

/-! ## Stable descending sort and first-maximum selection -/

/-- The earliest element of a list attaining the maximal value of d:
kept element on ties is the one appearing first. -/
def firstMaxBy {α : Type} (d : α → Nat) : List α → Option α
  | [] => none
  | x :: xs =>
    match firstMaxBy d xs with
    | none => some x
    | some y => if d y ≤ d x then some x else some y

/-- The head of a stable descending insertion sort by key d is the earliest
element with maximal key. This is the semantics of Python
list.sort(key=d, reverse=True) followed by [0]. -/
theorem head_insertionSort_eq_firstMaxBy {α : Type} (d : α → Nat) (l : List α) :
    (List.insertionSort (fun a b => d b ≤ d a) l).head? = firstMaxBy d l := by
  induction l with
  | nil => rfl
  | cons x xs ih =>
    rw [List.insertionSort]
    cases hs : List.insertionSort (fun a b => d b ≤ d a) xs with
    | nil =>
      rw [hs] at ih
      rw [firstMaxBy, ← ih]
      simp [List.orderedInsert]
    | cons y ys =>
      rw [hs] at ih
      rw [firstMaxBy, ← ih]
      simp only [List.head?]
      rw [List.orderedInsert]
      by_cases h : d y ≤ d x
      · rw [if_pos h, if_pos h]
      · rw [if_neg h, if_neg h]

/-- Maximum of a list of naturals, 0 when empty (max() over the coverage
list is only taken on non-empty lists in the source). -/
def foldMax (l : List Nat) : Nat := l.foldl Nat.max 0

theorem foldl_max_shift (l : List Nat) :
    ∀ a b : Nat, l.foldl Nat.max (Nat.max a b) = Nat.max a (l.foldl Nat.max b) := by
  induction l with
  | nil => intro a b; rfl
  | cons x xs ih =>
    intro a b
    have hassoc : Nat.max (Nat.max a b) x = Nat.max a (Nat.max b x) := Nat.max_assoc a b x
    rw [List.foldl_cons, List.foldl_cons, hassoc, ih]

theorem foldMax_cons (a : Nat) (l : List Nat) :
    foldMax (a :: l) = Nat.max a (foldMax l) := by
  have h0 : Nat.max 0 a = Nat.max a 0 := Nat.max_comm 0 a
  rw [foldMax, List.foldl_cons, h0, foldl_max_shift]
  rfl

theorem firstMaxBy_cons_isSome {α : Type} (d : α → Nat) (x : α) (xs : List α) :
    ∃ z, firstMaxBy d (x :: xs) = some z := by
  rw [firstMaxBy]
  cases firstMaxBy d xs with
  | none => exact ⟨x, rfl⟩
  | some y =>
    by_cases hc : d y ≤ d x
    · exact ⟨x, if_pos hc⟩
    · exact ⟨y, if_neg hc⟩

theorem firstMaxBy_eq_none {α : Type} (d : α → Nat) {l : List α}
    (h : firstMaxBy d l = none) : l = [] := by
  cases l with
  | nil => rfl
  | cons x xs =>
    rcases firstMaxBy_cons_isSome d x xs with ⟨z, hz⟩
    rw [hz] at h
    exact absurd h (by simp)

/-- firstMaxBy picks the first element whose key equals the maximal key. -/
theorem firstMaxBy_eq_find_max {α : Type} (d : α → Nat) (l : List α) :
    firstMaxBy d l = l.find? (fun x => d x = foldMax (l.map d)) := by
  induction l with
  | nil => rfl
  | cons x xs ih =>
    cases hfm : firstMaxBy d xs with
    | none =>
      have hxs : xs = [] := firstMaxBy_eq_none d hfm
      subst hxs
      simp [firstMaxBy, foldMax]
    | some y =>
      rw [hfm] at ih
      have hy : d y = foldMax (xs.map d) := by
        have h2 := List.find?_some ih.symm
        simpa using h2
      have hstep : firstMaxBy d (x :: xs) = if d y ≤ d x then some x else some y := by
        rw [firstMaxBy, hfm]
      rw [hstep, List.map_cons, foldMax_cons]
      by_cases h : d y ≤ d x
      · rw [if_pos h]
        have hmax : Nat.max (d x) (foldMax (List.map d xs)) = d x := by
          rw [← hy]; exact Nat.max_eq_left h
        rw [hmax]
        rw [List.find?_cons_of_pos _ (by simp)]
      · rw [if_neg h]
        have hmax : Nat.max (d x) (foldMax (List.map d xs)) = foldMax (List.map d xs) := by
          rw [← hy]
          exact Nat.max_eq_right (Nat.le_of_lt (Nat.lt_of_not_le h))
        rw [hmax]
        rw [List.find?_cons_of_neg _ (by simp; omega)]
        exact ih

/-! ## C3: block selection refinement -/

/-- Selection as worded by the spec: among the blocks, in scan order, the
first one whose duration equals the greatest duration; equivalently the
longest block, the earliest one on ties. -/
def selectEarliestLongest (blocks : List (Nat × Nat)) : Option (Nat × Nat) :=
  blocks.find? (fun b => blockDur b = foldMax (blocks.map blockDur))

/-- The sort-then-index-zero of lines 179-180 computes exactly the
spec-side earliest-longest selection. -/
theorem pickBlock_eq_selectEarliestLongest (blocks : List (Nat × Nat)) :
    pickBlock blocks = selectEarliestLongest blocks := by
  have h1 : pickBlock blocks = firstMaxBy blockDur blocks :=
    head_insertionSort_eq_firstMaxBy blockDur blocks
  rw [h1, selectEarliestLongest]
  exact firstMaxBy_eq_find_max blockDur blocks

/-- A returned window is always the earliest-longest block of the computed
block list. -/
theorem window_is_selectEarliestLongest {records : List Record} {s : Suggestion}
    (h : compute_suggestion records = some s) :
    some (s.start, s.endTime) = selectEarliestLongest (bestBlocksOf records) := by
  obtain ⟨-, -, -, -, best, hpick, -, -, hs, he, -⟩ := compute_suggestion_some_elim h
  rw [hs, he, ← pickBlock_eq_selectEarliestLongest, hpick]

/-- C3: the returned window comes from merging the maximal runs of steps at
maximum coverage into blocks (bestBlocksOf) and then choosing the block of
greatest duration, where ties in duration go to the block appearing earliest
in chronological scan order; the stable descending sort plus index zero of
the source equals that selection on every block list. -/
theorem C3_window_earliest_longest_block :
    (∀ blocks : List (Nat × Nat), pickBlock blocks = selectEarliestLongest blocks) ∧
    (∀ (records : List Record) (s : Suggestion),
      compute_suggestion records = some s →
      some (s.start, s.endTime) = selectEarliestLongest (bestBlocksOf records)) :=
  ⟨pickBlock_eq_selectEarliestLongest, fun _ _ h => window_is_selectEarliestLongest h⟩

/-- Witness for C3 at the concrete end-to-end input. -/
theorem C3_witness :
    some (630, 660) = selectEarliestLongest (bestBlocksOf demoRecords) := by
  refine C3_window_earliest_longest_block.2 demoRecords
    { max_free := 3, total_people := 3, start := 630, endTime := 660, event := "Picnic" } ?_
  rw [compute_suggestion]
  simp only [bestBlocksOf, maxFreeOf, freeCountsOf, timelineOf, buildTimeline_eq_range]
  decide

/-! ## C4: coverage counting -/

/-- A person is free in a step exactly when one of the slots fully contains
it. -/
theorem personFree_iff (info : PersonInfo) (t : Nat) :
    personFree info t = true ↔
      ∃ se ∈ info.slots, se.1 ≤ t ∧ t + TIME_STEP_MINUTES ≤ se.2 := by
  rw [personFree]
  simp [List.any_eq_true]

/-- The coverage of a step is the number of people having a fully covering
slot. -/
theorem freeCount_eq_card_free (people : List PersonInfo) (t : Nat) :
    freeCount people t =
      (people.filter (fun info =>
        decide (∃ se ∈ info.slots, se.1 ≤ t ∧ t + TIME_STEP_MINUTES ≤ se.2))).length := by
  rw [freeCount, List.countP_eq_length_filter]
  refine congrArg List.length (List.filter_congr ?_)
  intro info _
  by_cases hp : ∃ se ∈ info.slots, se.1 ≤ t ∧ t + TIME_STEP_MINUTES ≤ se.2
  · rw [decide_eq_true hp]
    exact (personFree_iff info t).mpr hp
  · rw [decide_eq_false hp]
    cases hb : personFree info t with
    | false => rfl
    | true => exact absurd ((personFree_iff info t).mp hb) hp

/-- C4: for every step [t, t+W) and every person, the person counts as free
iff some declared interval fully contains the step (start <= t and
end >= t+W) — partial overlap does not count; the coverage of the step is
the number of distinct people free in it; and a person with several covering
intervals still counts at most once per step, so the coverage never exceeds
the number of people. -/
theorem C4_full_containment_coverage :
    (∀ (info : PersonInfo) (t : Nat),
      personFree info t = true ↔
        ∃ se ∈ info.slots, se.1 ≤ t ∧ t + TIME_STEP_MINUTES ≤ se.2) ∧
    (∀ (people : List PersonInfo) (t : Nat),
      freeCount people t =
        (people.filter (fun info =>
          decide (∃ se ∈ info.slots, se.1 ≤ t ∧ t + TIME_STEP_MINUTES ≤ se.2))).length) ∧
    (∀ (people : List PersonInfo) (t : Nat), freeCount people t ≤ people.length) :=
  ⟨personFree_iff, freeCount_eq_card_free, fun _ _ => List.countP_le_length _⟩

/-! ## Structure of the emitted blocks -/

/-- Every endpoint of an emitted block comes from a step start (the open
run of cur included), the right endpoint shifted by one step width. -/
theorem blocksAux_mem_endpoints (m : Nat) (S : List Nat) :
    ∀ (L : List (Nat × Nat)) (cur : Option (Nat × Nat)),
      (∀ x ∈ L, x.1 ∈ S) →
      (∀ st la, cur = some (st, la) → st ∈ S ∧ la ∈ S) →
      ∀ b ∈ blocksAux m cur L,
        b.1 ∈ S ∧ ∃ u ∈ S, b.2 = u + TIME_STEP_MINUTES := by
  intro L
  induction L with
  | nil =>
    intro cur hL hcur b hb
    cases cur with
    | none => simp [blocksAux] at hb
    | some p =>
      rcases p with ⟨st, la⟩
      rw [blocksAux] at hb
      rcases List.mem_singleton.mp hb with rfl
      rcases hcur st la rfl with ⟨hst, hla⟩
      exact ⟨hst, la, hla, rfl⟩
  | cons tc rest ih =>
    intro cur hL hcur b hb
    have hrest : ∀ x ∈ rest, x.1 ∈ S := fun x hx => hL x (List.mem_cons_of_mem tc hx)
    have htc : tc.1 ∈ S := hL tc (List.mem_cons_self tc rest)
    rcases tc with ⟨t, c⟩
    cases cur with
    | none =>
      rw [blocksAux] at hb
      by_cases hc : c = m
      · rw [if_pos hc] at hb
        exact ih (some (t, t)) hrest
          (by intro st la he; cases he; exact ⟨htc, htc⟩) b hb
      · rw [if_neg hc] at hb
        exact ih none hrest (by intro st la he; cases he) b hb
    | some p =>
      rcases p with ⟨st, la⟩
      rw [blocksAux] at hb
      by_cases hc : c = m
      · rw [if_pos hc] at hb
        refine ih (some (st, t)) hrest ?_ b hb
        intro st2 la2 he
        cases he
        exact ⟨(hcur st la rfl).1, htc⟩
      · rw [if_neg hc] at hb
        rcases List.mem_cons.mp hb with rfl | hmem
        · rcases hcur st la rfl with ⟨hst, hla⟩
          exact ⟨hst, la, hla, rfl⟩
        · exact ih none hrest (by intro st2 la2 he; cases he) b hmem

/-- On a step list with non-decreasing step starts, every emitted block
spans at least one full step. -/
theorem blocksAux_block_span (m : Nat) :
    ∀ (L : List (Nat × Nat)) (cur : Option (Nat × Nat)),
      List.Pairwise (fun a b : Nat × Nat => a.1 ≤ b.1) L →
      (∀ st la, cur = some (st, la) → st ≤ la ∧ ∀ x ∈ L, la ≤ x.1) →
      ∀ b ∈ blocksAux m cur L, b.1 + TIME_STEP_MINUTES ≤ b.2 := by
  intro L
  induction L with
  | nil =>
    intro cur hpw hcur b hb
    cases cur with
    | none => simp [blocksAux] at hb
    | some p =>
      rcases p with ⟨st, la⟩
      rw [blocksAux] at hb
      rcases List.mem_singleton.mp hb with rfl
      have hle := (hcur st la rfl).1
      simp only []
      omega
  | cons tc rest ih =>
    intro cur hpw hcur b hb
    have hpw2 := List.pairwise_cons.mp hpw
    rcases tc with ⟨t, c⟩
    cases cur with
    | none =>
      rw [blocksAux] at hb
      by_cases hc : c = m
      · rw [if_pos hc] at hb
        refine ih (some (t, t)) hpw2.2 ?_ b hb
        intro st la he
        cases he
        exact ⟨Nat.le_refl t, fun x hx => hpw2.1 x hx⟩
      · rw [if_neg hc] at hb
        exact ih none hpw2.2 (by intro st la he; cases he) b hb
    | some p =>
      rcases p with ⟨st, la⟩
      rw [blocksAux] at hb
      by_cases hc : c = m
      · rw [if_pos hc] at hb
        refine ih (some (st, t)) hpw2.2 ?_ b hb
        intro st2 la2 he
        cases he
        rcases hcur st la rfl with ⟨h1, h2⟩
        refine ⟨Nat.le_trans h1 (h2 (t, c) (List.mem_cons_self _ _)), fun x hx => hpw2.1 x hx⟩
      · rw [if_neg hc] at hb
        rcases List.mem_cons.mp hb with rfl | hmem
        · have hle := (hcur st la rfl).1
          simp only []
          omega
        · exact ih none hpw2.2 (by intro st2 la2 he; cases he) b hmem

/-- C6: compute_suggestion never fails (it is a total function in this
embedding; the Python core raises no exceptions on well-formed input), and it
returns None exactly when a degenerate condition holds: empty record set,
zero-length or inverted day span, empty timeline, or zero maximum coverage.
In particular the empty input yields no suggestion. The other two source
guards (empty by_person dict, empty all_times list) are subsumed: they can
fire only on an empty record list. -/
theorem C6_none_iff_degenerate (records : List Record) :
    compute_suggestion records = none ↔
      (records = [] ∨ dayEndOf records ≤ dayStartOf records ∨
       timelineOf records = [] ∨ maxFreeOf records = 0) :=
  compute_suggestion_none_iff records

/-! ## Grid alignment of the returned window -/

theorem pickBlock_mem {blocks : List (Nat × Nat)} {b : Nat × Nat}
    (h : pickBlock blocks = some b) : b ∈ blocks := by
  rw [pickBlock] at h
  cases hs : List.insertionSort (fun a b => b.2 - b.1 ≤ a.2 - a.1) blocks with
  | nil => rw [hs] at h; exact absurd h (by simp)
  | cons y ys =>
    rw [hs] at h
    simp only [List.head?, Option.some.injEq] at h
    subst h
    refine (List.perm_insertionSort
      (fun a b : Nat × Nat => b.2 - b.1 ≤ a.2 - a.1) blocks).subset ?_
    rw [hs]
    exact List.mem_cons_self y ys

theorem timelineOf_pairwise (records : List Record) :
    List.Pairwise (fun a b : Nat => a ≤ b) (timelineOf records) := by
  rw [timelineOf, buildTimeline_eq_range]
  refine List.Pairwise.map _ ?_ (List.pairwise_lt_range _)
  intro a b hab
  have h30 : TIME_STEP_MINUTES = 30 := rfl
  simp only [h30]
  omega

theorem zipSteps_eq_map (records : List Record) :
    (timelineOf records).zip (freeCountsOf records) =
      (timelineOf records).map
        (fun t => (t, freeCount (groupByPerson records) t)) :=
  zip_map_self (freeCount (groupByPerson records)) (timelineOf records)

theorem zipSteps_pairwise (records : List Record) :
    List.Pairwise (fun a b : Nat × Nat => a.1 ≤ b.1)
      ((timelineOf records).zip (freeCountsOf records)) := by
  rw [zipSteps_eq_map]
  refine List.Pairwise.map _ ?_ (timelineOf_pairwise records)
  intro a b hab
  exact hab

theorem zipSteps_fst_mem {records : List Record} :
    ∀ x ∈ (timelineOf records).zip (freeCountsOf records),
      x.1 ∈ timelineOf records := by
  intro x hx
  rw [zipSteps_eq_map] at hx
  rcases List.mem_map.mp hx with ⟨t, ht, rfl⟩
  exact ht

/-- A returned window has both endpoints on the step grid. -/
theorem window_mem_timeline {records : List Record} {s : Suggestion}
    (h : compute_suggestion records = some s) :
    s.start ∈ timelineOf records ∧
      ∃ u ∈ timelineOf records, s.endTime = u + TIME_STEP_MINUTES := by
  obtain ⟨-, -, -, -, best, hpick, -, -, hs, he, -⟩ := compute_suggestion_some_elim h
  have hbm : best ∈ bestBlocksOf records := pickBlock_mem hpick
  have hmem := blocksAux_mem_endpoints (maxFreeOf records) (timelineOf records)
      ((timelineOf records).zip (freeCountsOf records)) none
      zipSteps_fst_mem (by intro st la he2; cases he2) best hbm
  rw [hs, he]
  exact hmem

/-- A returned window is anchored on the grid t0, t0+W, t0+2W, ... -/
theorem window_grid_aligned {records : List Record} {s : Suggestion}
    (h : compute_suggestion records = some s) :
    ∃ i j : Nat, s.start = dayStartOf records + TIME_STEP_MINUTES * i ∧
      s.endTime = dayStartOf records + TIME_STEP_MINUTES * j := by
  obtain ⟨hstart, u, hu, hend⟩ := window_mem_timeline h
  rw [timelineOf, buildTimeline_eq_range] at hstart hu
  rcases List.mem_map.mp hstart with ⟨i, _, hi⟩
  rcases List.mem_map.mp hu with ⟨j, _, hj⟩
  refine ⟨i, j + 1, hi.symm, ?_⟩
  rw [hend, ← hj, Nat.mul_succ, ← Nat.add_assoc]

/-! ## C5: timeline construction and grid anchoring -/

/-- C5: the timeline is the ordered arithmetic sequence t0, t0+W, t0+2W, ...
with t0 the minimum of all interval boundary timestamps, generated while
t + W <= maximum boundary; every boundary lies between dayStartOf and
dayEndOf; if the minimum is not below the maximum the timeline is empty and
the result is no suggestion; and the boundaries of every returned window lie
on the grid anchored at the minimum boundary. -/
theorem C5_grid_anchoring :
    (∀ current stop : Nat,
      buildTimeline current stop =
        (List.range ((stop - current) / TIME_STEP_MINUTES)).map
          (fun i => current + TIME_STEP_MINUTES * i)) ∧
    (∀ records : List Record, ∀ x ∈ allTimes (groupByPerson records),
      dayStartOf records ≤ x ∧ x ≤ dayEndOf records) ∧
    (∀ records : List Record, dayEndOf records ≤ dayStartOf records →
      timelineOf records = [] ∧ compute_suggestion records = none) ∧
    (∀ (records : List Record) (s : Suggestion),
      compute_suggestion records = some s →
      ∃ i j : Nat, s.start = dayStartOf records + TIME_STEP_MINUTES * i ∧
        s.endTime = dayStartOf records + TIME_STEP_MINUTES * j) := by
  refine ⟨fun current stop => buildTimeline_eq_range stop current, ?_, ?_, ?_⟩
  · intro records x hx
    exact ⟨listMin_le hx, le_listMax hx⟩
  · intro records hday
    constructor
    · rw [timelineOf, buildTimeline_eq_range]
      have h30 : TIME_STEP_MINUTES = 30 := rfl
      have hz : (dayEndOf records - dayStartOf records) / TIME_STEP_MINUTES = 0 := by
        rw [h30]; omega
      rw [hz]
      rfl
    · exact (compute_suggestion_none_iff records).mpr (Or.inr (Or.inl hday))
  · intro records s h
    exact window_grid_aligned h

/-- A degenerate one-record input: the single interval has start = end. -/
def degenRecords : List Record :=
  [{ name := "Dana", start_time := 600, end_time := 600, preferred_event := "" }]

/-- Witness for C5: the degenerate-span conjunct at a concrete input with
min = max, and the alignment conjunct at the end-to-end input. -/
theorem C5_witness :
    (timelineOf degenRecords = [] ∧ compute_suggestion degenRecords = none) ∧
    (∃ i j : Nat,
      630 = dayStartOf demoRecords + TIME_STEP_MINUTES * i ∧
      660 = dayStartOf demoRecords + TIME_STEP_MINUTES * j) := by
  constructor
  · exact C5_grid_anchoring.2.2.1 degenRecords (by decide)
  · refine C5_grid_anchoring.2.2.2 demoRecords
      { max_free := 3, total_people := 3, start := 630, endTime := 660, event := "Picnic" } ?_
    rw [compute_suggestion]
    simp only [bestBlocksOf, maxFreeOf, freeCountsOf, timelineOf, buildTimeline_eq_range]
    decide

/-! ## First-occurrence key lists -/

/-- Insert a key at the back unless already present: the way an
insertion-ordered dict acquires its keys. -/
def insertKey {α : Type} [DecidableEq α] (acc : List α) (k : α) : List α :=
  if k ∈ acc then acc else acc ++ [k]

/-- The distinct values of a list, each at its first occurrence, in order. -/
def firstOccs {α : Type} [DecidableEq α] (l : List α) : List α :=
  l.foldl insertKey []

theorem mem_insertKey {α : Type} [DecidableEq α] (acc : List α) (k x : α) :
    x ∈ insertKey acc k ↔ x ∈ acc ∨ x = k := by
  rw [insertKey]
  by_cases h : k ∈ acc
  · rw [if_pos h]
    constructor
    · exact Or.inl
    · rintro (hx | rfl)
      · exact hx
      · exact h
  · rw [if_neg h]
    simp [List.mem_append]

theorem mem_foldl_insertKey {α : Type} [DecidableEq α] (l : List α) :
    ∀ (acc : List α) (x : α), x ∈ l.foldl insertKey acc ↔ x ∈ acc ∨ x ∈ l := by
  induction l with
  | nil => intro acc x; simp
  | cons y ys ih =>
    intro acc x
    rw [List.foldl_cons, ih, mem_insertKey]
    constructor
    · rintro ((hx | rfl) | hx)
      · exact Or.inl hx
      · exact Or.inr (List.mem_cons_self _ _)
      · exact Or.inr (List.mem_cons_of_mem _ hx)
    · rintro (hx | hx)
      · exact Or.inl (Or.inl hx)
      · rcases List.mem_cons.mp hx with rfl | hx
        · exact Or.inl (Or.inr rfl)
        · exact Or.inr hx

theorem mem_firstOccs {α : Type} [DecidableEq α] (l : List α) (x : α) :
    x ∈ firstOccs l ↔ x ∈ l := by
  rw [firstOccs, mem_foldl_insertKey]
  simp

theorem nodup_foldl_insertKey {α : Type} [DecidableEq α] (l : List α) :
    ∀ acc : List α, acc.Nodup → (l.foldl insertKey acc).Nodup := by
  induction l with
  | nil => intro acc h; exact h
  | cons y ys ih =>
    intro acc h
    rw [List.foldl_cons]
    refine ih _ ?_
    rw [insertKey]
    by_cases hy : y ∈ acc
    · rw [if_pos hy]; exact h
    · rw [if_neg hy]
      rw [List.nodup_append]
      exact ⟨h, List.nodup_singleton y, by
        intro a ha hb
        rcases List.mem_singleton.mp hb with rfl
        exact hy ha⟩

theorem nodup_firstOccs {α : Type} [DecidableEq α] (l : List α) :
    (firstOccs l).Nodup :=
  nodup_foldl_insertKey l [] List.nodup_nil

theorem length_firstOccs_eq_dedup {α : Type} [DecidableEq α] (l : List α) :
    (firstOccs l).length = l.dedup.length := by
  have h1 : (firstOccs l).toFinset = l.toFinset := by
    ext x
    simp [List.mem_toFinset, mem_firstOccs]
  have h2 : (firstOccs l).toFinset.card = (firstOccs l).length :=
    List.toFinset_card_of_nodup (nodup_firstOccs l)
  have h3 : l.toFinset.card = l.dedup.length := List.card_toFinset l
  rw [← h2, h1, h3]

/-! ## The person names of the grouped structure -/

theorem addRecord_map_name (acc : List PersonInfo) (r : Record) :
    (addRecord acc r).map PersonInfo.name =
      insertKey (acc.map PersonInfo.name) r.name := by
  rw [addRecord, insertKey]
  have hmem : (acc.any (fun p => p.name = r.name) = true) ↔
      r.name ∈ acc.map PersonInfo.name := by
    rw [List.any_eq_true]
    constructor
    · rintro ⟨p, hp, he⟩
      exact List.mem_map.mpr ⟨p, hp, by simpa using he⟩
    · intro h
      rcases List.mem_map.mp h with ⟨p, hp, he⟩
      exact ⟨p, hp, by simpa using he⟩
  by_cases h : r.name ∈ acc.map PersonInfo.name
  · rw [if_pos (hmem.mpr h), if_pos h, List.map_map]
    refine List.map_congr_left ?_
    intro p _
    by_cases hp : p.name = r.name
    · simp only [Function.comp, if_pos hp]
    · simp only [Function.comp, if_neg hp]
  · rw [if_neg (fun hc => h (hmem.mp hc)), if_neg h, List.map_append]
    rfl

theorem map_name_foldl_addRecord (rs : List Record) :
    ∀ acc : List PersonInfo,
      (rs.foldl addRecord acc).map PersonInfo.name =
        (rs.map Record.name).foldl insertKey (acc.map PersonInfo.name) := by
  induction rs with
  | nil => intro acc; rfl
  | cons r rs ih =>
    intro acc
    rw [List.foldl_cons, ih, List.map_cons, List.foldl_cons, addRecord_map_name]

/-- The grouped names are the distinct record names at first occurrence. -/
theorem groupByPerson_names (records : List Record) :
    (groupByPerson records).map PersonInfo.name =
      firstOccs (records.map Record.name) := by
  rw [groupByPerson, map_name_foldl_addRecord, firstOccs]
  rfl

/-- total_people counts the distinct person names of the input. -/
theorem groupByPerson_length_eq_distinct (records : List Record) :
    (groupByPerson records).length = (records.map Record.name).dedup.length := by
  rw [← length_firstOccs_eq_dedup, ← groupByPerson_names, List.length_map]

/-! ## C7: suggestion invariants -/

theorem maxFreeOf_le_people (records : List Record) :
    maxFreeOf records ≤ (groupByPerson records).length := by
  rw [maxFreeOf]
  refine foldl_max_le _ 0 _ (Nat.zero_le _) ?_
  intro x hx
  rw [freeCountsOf] at hx
  rcases List.mem_map.mp hx with ⟨t, _, rfl⟩
  rw [freeCount]
  exact List.countP_le_length _

/-- C7: a returned suggestion has coverage at most total_people, where
total_people is the number of distinct person names in the input, and its
window length is an integer multiple of the 30-minute step width. -/
theorem C7_suggestion_invariants (records : List Record) (s : Suggestion)
    (h : compute_suggestion records = some s) :
    s.max_free ≤ s.total_people ∧
    s.total_people = (records.map Record.name).dedup.length ∧
    TIME_STEP_MINUTES ∣ (s.endTime - s.start) := by
  obtain ⟨-, -, -, -, best, hpick, hmf, htp, hs, he, -⟩ := compute_suggestion_some_elim h
  refine ⟨?_, ?_, ?_⟩
  · rw [hmf, htp]
    exact maxFreeOf_le_people records
  · rw [htp]
    exact groupByPerson_length_eq_distinct records
  · obtain ⟨i, j, hi, hj⟩ := window_grid_aligned h
    refine ⟨j - i, ?_⟩
    rw [hi, hj]
    have h30 : TIME_STEP_MINUTES = 30 := rfl
    rw [h30]
    omega

/-- Witness for C7 at the end-to-end input. -/
theorem C7_witness :
    3 ≤ 3 ∧ 3 = (demoRecords.map Record.name).dedup.length ∧
    TIME_STEP_MINUTES ∣ (660 - 630) := by
  refine C7_suggestion_invariants demoRecords
    { max_free := 3, total_people := 3, start := 630, endTime := 660, event := "Picnic" } ?_
  rw [compute_suggestion]
  simp only [bestBlocksOf, maxFreeOf, freeCountsOf, timelineOf, buildTimeline_eq_range]
  decide

/-! ## C9: positive coverage, non-trivial window -/

/-- C9: a returned suggestion always has coverage at least 1 (the function
returns None when the maximum coverage is not positive) and its window
contains at least one full step, so window_start is strictly before
window_end. -/
theorem C9_window_nonempty (records : List Record) (s : Suggestion)
    (h : compute_suggestion records = some s) :
    1 ≤ s.max_free ∧ s.start < s.endTime ∧
    s.start + TIME_STEP_MINUTES ≤ s.endTime := by
  obtain ⟨-, -, -, hmf0, best, hpick, hmf, -, hs, he, -⟩ := compute_suggestion_some_elim h
  have hbm : best ∈ bestBlocksOf records := pickBlock_mem hpick
  have hspan := blocksAux_block_span (maxFreeOf records)
      ((timelineOf records).zip (freeCountsOf records)) none
      (zipSteps_pairwise records) (by intro st la he2; cases he2) best hbm
  have h30 : TIME_STEP_MINUTES = 30 := rfl
  rw [h30] at hspan
  refine ⟨by rw [hmf]; omega, by rw [hs, he]; omega, by rw [hs, he, h30]; omega⟩

/-- Witness for C9 at the end-to-end input. -/
theorem C9_witness : 1 ≤ 3 ∧ 630 < 660 ∧ 630 + TIME_STEP_MINUTES ≤ 660 := by
  refine C9_window_nonempty demoRecords
    { max_free := 3, total_people := 3, start := 630, endTime := 660, event := "Picnic" } ?_
  rw [compute_suggestion]
  simp only [bestBlocksOf, maxFreeOf, freeCountsOf, timelineOf, buildTimeline_eq_range]
  decide

/-! ## Spec-side event voter -/

/-- The usable labels of a collected label list: stripped, with empty
results dropped. -/
def labelsOf (evs : List String) : List String :=
  (evs.map pstrip).filter (fun l => l ≠ "")

/-- The winning normalized key, as worded by the spec: among the normalized
keys in first-occurrence order, the first whose vote count equals the
highest vote count (hence highest count, earliest first occurrence on an
equal count). -/
def specWinnerKey (labels : List String) : Option String :=
  (firstOccs (labels.map plower)).find?
    (fun k => (labels.map plower).count k =
      foldMax ((firstOccs (labels.map plower)).map
        (fun k2 => (labels.map plower).count k2)))

/-- The displayed label, as worded by the spec: the first occurrence of the
winning key, in its original (stripped) casing. -/
def specDisplay (labels : List String) : Option String :=
  (specWinnerKey labels).bind (fun k => labels.find? (fun lab => plower lab = k))

/-- The event the spec asks for: the displayed winning label, or the
sentinel when no labels exist. -/
def specEventChoice (labels : List String) : String :=
  match specDisplay labels with
  | some lab => lab
  | none => "No clear winner"

/-- The labels of a record list in overall record scan order (the reading
of the claim). -/
def recordLabels (records : List Record) : List String :=
  labelsOf (records.map Record.preferred_event)

/-- The labels of a record list in the grouped scan order actually used by
the code: people in order of first appearance, labels of each person in
record order. -/
def groupedLabels (records : List Record) : List String :=
  labelsOf ((groupByPerson records).flatMap PersonInfo.events)

/-! ## The vote tally as a function of the normalized key list -/

/-- The association list an insertion-ordered counting dict reaches after
tallying a list of keys. -/
def tallyOf (ks : List String) : List (String × Nat) :=
  (firstOccs ks).map (fun k => (k, ks.count k))

theorem labelsOf_cons (e : String) (evs : List String) :
    labelsOf (e :: evs) =
      if pstrip e = "" then labelsOf evs else pstrip e :: labelsOf evs := by
  rw [labelsOf, List.map_cons, List.filter_cons]
  by_cases h : pstrip e = ""
  · rw [if_pos h]
    simp [h, labelsOf]
  · rw [if_neg h]
    simp [h, labelsOf]

theorem foldl_voteStep_eq_addVote (evs : List String) :
    ∀ acc : List (String × Nat),
      evs.foldl voteStep acc = ((labelsOf evs).map plower).foldl addVote acc := by
  induction evs with
  | nil => intro acc; rfl
  | cons e evs ih =>
    intro acc
    rw [List.foldl_cons, labelsOf_cons, voteStep]
    by_cases h : pstrip e = ""
    · rw [if_pos h, if_pos h, ih]
    · rw [if_neg h, if_neg h, List.map_cons, List.foldl_cons, ih]

theorem firstOccs_snoc (ks : List String) (k : String) :
    firstOccs (ks ++ [k]) = insertKey (firstOccs ks) k := by
  rw [firstOccs, List.foldl_append]
  rfl

theorem tallyOf_fst (ks : List String) :
    (tallyOf ks).map Prod.fst = firstOccs ks := by
  rw [tallyOf, List.map_map]
  have h : (Prod.fst ∘ fun k => (k, ks.count k)) = id := rfl
  rw [h, List.map_id]

theorem any_fst_eq_iff (votes : List (String × Nat)) (k : String) :
    (votes.any (fun kv => kv.1 = k) = true) ↔ k ∈ votes.map Prod.fst := by
  rw [List.any_eq_true]
  constructor
  · rintro ⟨kv, hkv, he⟩
    exact List.mem_map.mpr ⟨kv, hkv, by simpa using he⟩
  · intro h
    rcases List.mem_map.mp h with ⟨kv, hkv, he⟩
    exact ⟨kv, hkv, by simpa using he⟩

theorem count_append_singleton (ks : List String) (k k2 : String) :
    (ks ++ [k]).count k2 = ks.count k2 + (if k2 = k then 1 else 0) := by
  rw [List.count_append]
  congr 1
  by_cases h : k2 = k
  · rw [if_pos h, h]
    simp [List.count_singleton]
  · rw [if_neg h]
    simp [List.count_singleton', h]

theorem addVote_tallyOf (ks : List String) (k : String) :
    addVote (tallyOf ks) k = tallyOf (ks ++ [k]) := by
  by_cases hk : k ∈ ks
  · have hany : ((tallyOf ks).any (fun kv => kv.1 = k)) = true :=
      (any_fst_eq_iff _ k).mpr (by rw [tallyOf_fst]; exact (mem_firstOccs ks k).mpr hk)
    rw [addVote, if_pos hany]
    rw [tallyOf, tallyOf, firstOccs_snoc, insertKey,
      if_pos ((mem_firstOccs ks k).mpr hk), List.map_map]
    refine List.map_congr_left ?_
    intro k2 _
    simp only [Function.comp]
    by_cases h2 : k2 = k
    · rw [if_pos h2, count_append_singleton, if_pos h2]
    · rw [if_neg h2, count_append_singleton, if_neg h2, Nat.add_zero]
  · have hany : ¬ (((tallyOf ks).any (fun kv => kv.1 = k)) = true) := by
      rw [any_fst_eq_iff, tallyOf_fst, mem_firstOccs]
      exact hk
    rw [addVote, if_neg hany]
    rw [tallyOf, tallyOf, firstOccs_snoc, insertKey,
      if_neg (fun hc => hk ((mem_firstOccs ks k).mp hc)), List.map_append]
    congr 1
    · refine List.map_congr_left ?_
      intro k2 hk2
      have h2 : k2 ≠ k := fun he => hk (he ▸ (mem_firstOccs ks k2).mp hk2)
      rw [count_append_singleton, if_neg h2, Nat.add_zero]
    · rw [List.map_singleton, count_append_singleton, if_pos rfl]
      rw [List.count_eq_zero.mpr hk]

theorem foldl_addVote_eq_tallyOf (ks : List String) :
    ks.foldl addVote [] = tallyOf ks := by
  induction ks using List.reverseRecOn with
  | nil => rfl
  | append_singleton ks k ih =>
    rw [List.foldl_append, ih, List.foldl_cons, List.foldl_nil, addVote_tallyOf]

/-- The votes dict of the source is the count table of the normalized
usable labels, keyed in first-occurrence order. -/
theorem tallyVotes_eq_tallyOf (people : List PersonInfo) :
    tallyVotes people =
      tallyOf ((labelsOf (people.flatMap PersonInfo.events)).map plower) := by
  rw [tallyVotes, foldl_voteStep_eq_addVote, foldl_addVote_eq_tallyOf]

theorem firstMaxBy_cons_none {α : Type} (d : α → Nat) {xs : List α}
    (h : firstMaxBy d xs = none) (x : α) : firstMaxBy d (x :: xs) = some x := by
  rw [firstMaxBy, h]

theorem firstMaxBy_cons_some {α : Type} (d : α → Nat) {xs : List α} {y : α}
    (h : firstMaxBy d xs = some y) (x : α) :
    firstMaxBy d (x :: xs) = if d y ≤ d x then some x else some y := by
  rw [firstMaxBy, h]

theorem firstMaxBy_map {α β : Type} (d : β → Nat) (f : α → β) (l : List α) :
    firstMaxBy d (l.map f) = (firstMaxBy (fun a => d (f a)) l).map f := by
  induction l with
  | nil => rfl
  | cons x xs ih =>
    cases hfm : firstMaxBy (fun a => d (f a)) xs with
    | none =>
      have hxs : xs = [] := firstMaxBy_eq_none _ hfm
      subst hxs
      rfl
    | some y =>
      have hmap : firstMaxBy d (xs.map f) = some (f y) := by
        rw [ih, hfm]
        rfl
      rw [List.map_cons, firstMaxBy_cons_some d hmap, firstMaxBy_cons_some _ hfm]
      by_cases h : d (f y) ≤ d (f x)
      · rw [if_pos h, if_pos h]
        rfl
      · rw [if_neg h, if_neg h]
        rfl

/-- The head of the stable descending sort of the votes dict is the winner
key of the spec, paired with its count. -/
theorem topVote_tallyOf (labels : List String) :
    topVote (tallyOf (labels.map plower)) =
      (specWinnerKey labels).map (fun k => (k, (labels.map plower).count k)) := by
  have h1 : topVote (tallyOf (labels.map plower)) =
      firstMaxBy Prod.snd (tallyOf (labels.map plower)) :=
    head_insertionSort_eq_firstMaxBy Prod.snd _
  have h2 : firstMaxBy Prod.snd
      ((firstOccs (labels.map plower)).map
        (fun k => (k, (labels.map plower).count k))) =
      (firstMaxBy (fun k => (labels.map plower).count k)
        (firstOccs (labels.map plower))).map
        (fun k => (k, (labels.map plower).count k)) :=
    firstMaxBy_map Prod.snd _ _
  rw [h1, tallyOf, h2, firstMaxBy_eq_find_max, specWinnerKey]

theorem plower_eq_empty_iff (s : String) : plower s = "" ↔ s = "" := by
  constructor
  · intro h
    have hd : (plower s).data = [] := by rw [h]
    rw [plower] at hd
    have hmap : s.data.map Char.toLower = [] := hd
    have hsd : s.data = [] := List.map_eq_nil_iff.mp hmap
    exact String.ext hsd
  · rintro rfl
    rfl

theorem findPretty_eq_flat (k : String) (hk : k ≠ "") :
    ∀ people : List PersonInfo,
      findPretty k people =
        ((people.flatMap PersonInfo.events).find?
          (fun ev => plower (pstrip ev) = k)).map pstrip := by
  intro people
  induction people with
  | nil => rfl
  | cons p ps ih =>
    cases hf : p.events.find? (fun ev => plower (pstrip ev) = k) with
    | none =>
      have hstep : findPretty k (p :: ps) = findPretty k ps := by
        rw [findPretty, hf]
      rw [hstep, ih, List.flatMap_cons, List.find?_append, hf, Option.none_or]
    | some ev =>
      have hp : plower (pstrip ev) = k := by simpa using List.find?_some hf
      have hne : pstrip ev ≠ "" := by
        intro h0
        rw [h0] at hp
        exact hk (by rw [← hp]; rfl)
      have hstep : findPretty k (p :: ps) = some (pstrip ev) := by
        rw [findPretty, hf]
        show (if pstrip ev = "" then findPretty k ps else some (pstrip ev)) = some (pstrip ev)
        rw [if_neg hne]
      rw [hstep, List.flatMap_cons, List.find?_append, hf]
      rfl

theorem find?_filter_of_imp {α : Type} (p q : α → Bool)
    (himp : ∀ x, p x = true → q x = true) :
    ∀ l : List α, (l.filter q).find? p = l.find? p := by
  intro l
  induction l with
  | nil => rfl
  | cons x l ih =>
    rw [List.filter_cons]
    by_cases hq : q x = true
    · rw [if_pos hq]
      by_cases hp : p x = true
      · rw [List.find?_cons_of_pos _ hp, List.find?_cons_of_pos _ hp]
      · rw [List.find?_cons_of_neg _ (by simpa using hp),
          List.find?_cons_of_neg _ (by simpa using hp), ih]
    · rw [if_neg hq]
      have hp : ¬ p x = true := fun hc => hq (himp x hc)
      rw [ih, List.find?_cons_of_neg _ (by simpa using hp)]

theorem find?_labelsOf (evs : List String) (k : String) (hk : k ≠ "") :
    (labelsOf evs).find? (fun lab => plower lab = k) =
      (evs.find? (fun ev => plower (pstrip ev) = k)).map pstrip := by
  rw [labelsOf]
  rw [find?_filter_of_imp _ _ ?himp]
  case himp =>
    intro lab hlab
    simp only [decide_eq_true_eq] at hlab ⊢
    intro h0
    subst h0
    exact hk (by rw [← hlab]; rfl)
  rw [List.find?_map]
  rfl

theorem firstOccs_eq_nil_iff {α : Type} [DecidableEq α] (l : List α) :
    firstOccs l = [] ↔ l = [] := by
  constructor
  · intro h
    cases l with
    | nil => rfl
    | cons x xs =>
      have hx : x ∈ firstOccs (x :: xs) :=
        (mem_firstOccs _ _).mpr (List.mem_cons_self x xs)
      rw [h] at hx
      cases hx
  · rintro rfl
    rfl

/-- The event chosen by the source voter (lines 182-206) is exactly the
spec-side choice over the usable labels in grouped scan order. -/
theorem eventVote_eq_spec (people : List PersonInfo) :
    eventVote people = specEventChoice (labelsOf (people.flatMap PersonInfo.events)) := by
  by_cases hL0 : labelsOf (people.flatMap PersonInfo.events) = []
  · have hv : tallyVotes people = [] := by
      rw [tallyVotes_eq_tallyOf, hL0]
      rfl
    rw [eventVote, hv, hL0]
    rfl
  · have hks0 : firstOccs ((labelsOf (people.flatMap PersonInfo.events)).map plower) ≠ [] := by
      intro hc
      exact hL0 (List.map_eq_nil_iff.mp ((firstOccs_eq_nil_iff _).mp hc))
    have h1 : specWinnerKey (labelsOf (people.flatMap PersonInfo.events)) =
        firstMaxBy
          (fun k => ((labelsOf (people.flatMap PersonInfo.events)).map plower).count k)
          (firstOccs ((labelsOf (people.flatMap PersonInfo.events)).map plower)) :=
      (firstMaxBy_eq_find_max _ _).symm
    obtain ⟨k, hwk⟩ : ∃ k, specWinnerKey (labelsOf (people.flatMap PersonInfo.events)) = some k := by
      cases hfo : firstOccs ((labelsOf (people.flatMap PersonInfo.events)).map plower) with
      | nil => exact absurd hfo hks0
      | cons k0 kt =>
        rw [h1, hfo]
        exact firstMaxBy_cons_isSome _ k0 kt
    have hkmem : k ∈ firstOccs ((labelsOf (people.flatMap PersonInfo.events)).map plower) := by
      have hwk2 := hwk
      rw [specWinnerKey] at hwk2
      exact List.mem_of_find?_eq_some hwk2
    obtain ⟨lab, hlabL, hlabk⟩ :
        ∃ lab ∈ labelsOf (people.flatMap PersonInfo.events), plower lab = k :=
      List.mem_map.mp ((mem_firstOccs _ _).mp hkmem)
    have hlabne : lab ≠ "" := by
      have hmem := hlabL
      rw [labelsOf] at hmem
      have := List.of_mem_filter hmem
      simpa using this
    have hkne : k ≠ "" := by
      intro h0
      rw [h0] at hlabk
      exact hlabne ((plower_eq_empty_iff lab).mp hlabk)
    have hvt : topVote (tallyVotes people) =
        some (k, ((labelsOf (people.flatMap PersonInfo.events)).map plower).count k) := by
      rw [tallyVotes_eq_tallyOf, topVote_tallyOf, hwk]
      rfl
    obtain ⟨lab2, hlab2⟩ :
        ∃ lab2, (labelsOf (people.flatMap PersonInfo.events)).find?
          (fun lab => plower lab = k) = some lab2 := by
      cases hfp : (labelsOf (people.flatMap PersonInfo.events)).find?
          (fun lab => plower lab = k) with
      | some lab2 => exact ⟨lab2, rfl⟩
      | none =>
        exfalso
        have hno := List.find?_eq_none.mp hfp lab hlabL
        exact hno (by simpa using hlabk)
    have hpretty : findPretty k people = some lab2 := by
      rw [findPretty_eq_flat k hkne, ← find?_labelsOf _ _ hkne, hlab2]
    have hvne : tallyVotes people ≠ [] := by
      rw [tallyVotes_eq_tallyOf, tallyOf]
      intro hc
      exact hks0 (List.map_eq_nil_iff.mp hc)
    have hie : (tallyVotes people).isEmpty = false := by
      cases htv : tallyVotes people with
      | nil => exact absurd htv hvne
      | cons v vs => rfl
    rw [eventVote, hie]
    show (match topVote (tallyVotes people) with
      | none => "No clear winner"
      | some top =>
        match findPretty top.1 people with
        | some pretty => pretty
        | none => top.1) = _
    rw [hvt]
    show (match findPretty k people with
      | some pretty => pretty
      | none => k) = _
    rw [hpretty]
    show lab2 = _
    rw [specEventChoice, specDisplay, hwk]
    show lab2 = (match (labelsOf (people.flatMap PersonInfo.events)).find?
      (fun lab => plower lab = k) with
      | some lab => lab
      | none => "No clear winner")
    rw [hlab2]

/-! ## C2: the winning event -/

/-- Three people with the labels of the spec example. -/
def bgRecords : List Record :=
  [{ name := "P1", start_time := 540, end_time := 600, preferred_event := "Board Games" },
   { name := "P2", start_time := 540, end_time := 600, preferred_event := "board games" },
   { name := "P3", start_time := 540, end_time := 600, preferred_event := "Trivia" }]

/-- A record list in which the records of person Ann are not contiguous:
labels in record scan order are x, y, w, w, y, while the grouped scan order
of the code visits them as x, w, y, w, y. -/
def cexRecords : List Record :=
  [{ name := "Ann", start_time := 540, end_time := 600, preferred_event := "x" },
   { name := "Ben", start_time := 540, end_time := 600, preferred_event := "y" },
   { name := "Ann", start_time := 600, end_time := 660, preferred_event := "w" },
   { name := "Col", start_time := 540, end_time := 600, preferred_event := "w" },
   { name := "Deb", start_time := 540, end_time := 600, preferred_event := "y" }]

/-- C2 as stated is false: on cexRecords the keys y and w tie with 2 votes
each; y occurs first in the overall record scan order (record 2 against
record 3), so the claim predicts y, but the code scans the by_person
grouping (Ann first with x then w) and its insertion-ordered votes dict
breaks the tie in favour of w. -/
theorem C2_counterexample_scan_order :
    (compute_suggestion cexRecords).map Suggestion.event = some "w" ∧
    specEventChoice (recordLabels cexRecords) = "y" ∧
    (compute_suggestion cexRecords).map Suggestion.event ≠
      some (specEventChoice (recordLabels cexRecords)) := by
  have h1 : (compute_suggestion cexRecords).map Suggestion.event = some "w" := by
    rw [compute_suggestion]
    simp only [bestBlocksOf, maxFreeOf, freeCountsOf, timelineOf, buildTimeline_eq_range]
    decide
  have h2 : specEventChoice (recordLabels cexRecords) = "y" := by decide
  refine ⟨h1, h2, ?_⟩
  rw [h1, h2]
  decide

/-- C2 amended: the winning event is the case-insensitively normalized key
with the highest vote count over the non-empty stripped labels; on a tie the
key whose first occurrence appears earliest in the grouped scan order wins
(people in order of first appearance, each person's labels in record order —
this equals the overall record scan order whenever each person's records are
contiguous, as the storage collaborator guarantees); the displayed label is
the original-casing (stripped) first occurrence of that key; with no labels
the sentinel "No clear winner" is output; and on the labels
["Board Games", "board games", "Trivia"] the winning key has 2 votes and is
displayed as "Board Games". -/
theorem C2_event_winner_amended :
    (∀ (records : List Record) (s : Suggestion),
      compute_suggestion records = some s →
      s.event = specEventChoice (groupedLabels records)) ∧
    ((labelsOf ["Board Games", "board games", "Trivia"]).map plower).count "board games" = 2 ∧
    specEventChoice (labelsOf ["Board Games", "board games", "Trivia"]) = "Board Games" ∧
    (compute_suggestion bgRecords).map Suggestion.event = some "Board Games" := by
  refine ⟨?_, by decide, by decide, ?_⟩
  · intro records s h
    obtain ⟨-, -, -, -, best, hpick, -, -, -, -, hev⟩ := compute_suggestion_some_elim h
    rw [hev, eventVote_eq_spec]
    rfl
  · rw [compute_suggestion]
    simp only [bestBlocksOf, maxFreeOf, freeCountsOf, timelineOf, buildTimeline_eq_range]
    decide

/-- Witness for the amended C2 at the end-to-end input: Picnic has the most
votes there. -/
theorem C2_witness : "Picnic" = specEventChoice (groupedLabels demoRecords) := by
  refine C2_event_winner_amended.1 demoRecords
    { max_free := 3, total_people := 3, start := 630, endTime := 660, event := "Picnic" } ?_
  rw [compute_suggestion]
  simp only [bestBlocksOf, maxFreeOf, freeCountsOf, timelineOf, buildTimeline_eq_range]
  decide

/-! ## Idempotence of stripping -/

theorem dropWhile_dropWhile {α : Type} (p : α → Bool) (l : List α) :
    (l.dropWhile p).dropWhile p = l.dropWhile p := by
  induction l with
  | nil => rfl
  | cons x l ih =>
    rw [List.dropWhile_cons]
    by_cases h : p x = true
    · rw [if_pos h, ih]
    · rw [if_neg h, List.dropWhile_cons, if_neg h]

theorem dropWhile_prefix_fixed {α : Type} (p : α → Bool) :
    ∀ (r m : List α), r <+: m → m.dropWhile p = m → r.dropWhile p = r := by
  intro r m hpre hm
  cases r with
  | nil => rfl
  | cons a r' =>
    rcases hpre with ⟨t, ht⟩
    rw [← ht, List.cons_append] at hm
    have hpa : ¬ p a = true := by
      intro hpa
      rw [List.dropWhile_cons, if_pos hpa] at hm
      have hlen := (List.dropWhile_suffix (l := r' ++ t) p).length_le
      have hcon := congrArg List.length hm
      simp only [List.length_cons] at hcon
      omega
    rw [List.dropWhile_cons, if_neg hpa]

theorem stripList_idem (l : List Char) :
    stripList (stripList l) = stripList l := by
  have hmfix : (l.dropWhile Char.isWhitespace).dropWhile Char.isWhitespace
      = l.dropWhile Char.isWhitespace := dropWhile_dropWhile _ l
  have hpre : stripList l <+: l.dropWhile Char.isWhitespace := by
    rw [stripList]
    have hsuf : (l.dropWhile Char.isWhitespace).reverse.dropWhile Char.isWhitespace
        <:+ (l.dropWhile Char.isWhitespace).reverse := List.dropWhile_suffix _
    have hp := List.reverse_prefix.mpr hsuf
    rwa [List.reverse_reverse] at hp
  have hrfix : (stripList l).dropWhile Char.isWhitespace = stripList l :=
    dropWhile_prefix_fixed _ (stripList l) (l.dropWhile Char.isWhitespace) hpre hmfix
  have hrev : (stripList l).reverse.dropWhile Char.isWhitespace
      = (stripList l).reverse := by
    rw [stripList, List.reverse_reverse]
    exact dropWhile_dropWhile _ _
  rw [show stripList (stripList l)
      = (((stripList l).dropWhile Char.isWhitespace).reverse.dropWhile
          Char.isWhitespace).reverse from rfl]
  rw [hrfix, hrev, List.reverse_reverse]

theorem pstrip_idem (s : String) : pstrip (pstrip s) = pstrip s :=
  String.ext (stripList_idem s.data)

/-! ## Provenance of stored labels -/

/-- Every stored event label is the stripped form of the label submitted by
one of the records. -/
theorem events_from_records (records : List Record) :
    ∀ p ∈ groupByPerson records, ∀ ev ∈ p.events,
      ∃ r ∈ records, ev = pstrip r.preferred_event := by
  rw [groupByPerson]
  have H : ∀ (rs : List Record) (acc : List PersonInfo),
      (∀ r ∈ rs, r ∈ records) →
      (∀ p ∈ acc, ∀ ev ∈ p.events, ∃ r ∈ records, ev = pstrip r.preferred_event) →
      ∀ p ∈ rs.foldl addRecord acc, ∀ ev ∈ p.events,
        ∃ r ∈ records, ev = pstrip r.preferred_event := by
    intro rs
    induction rs with
    | nil => intro acc _ hacc; exact hacc
    | cons r rs ih =>
      intro acc hsub hacc
      rw [List.foldl_cons]
      refine ih (addRecord acc r) (fun r2 h2 => hsub r2 (List.mem_cons_of_mem _ h2)) ?_
      intro p hp ev hev
      have hrmem : r ∈ records := hsub r (List.mem_cons_self _ _)
      rw [addRecord] at hp
      split at hp
      · rcases List.mem_map.mp hp with ⟨q, hq, hpq⟩
        by_cases hname : q.name = r.name
        · rw [if_pos hname] at hpq
          subst hpq
          by_cases hre : r.preferred_event = ""
          · rw [if_pos hre] at hev
            exact hacc q hq ev hev
          · rw [if_neg hre] at hev
            rcases List.mem_append.mp hev with hcase | hcase
            · exact hacc q hq ev hcase
            · rcases List.mem_singleton.mp hcase with rfl
              exact ⟨r, hrmem, rfl⟩
        · rw [if_neg hname] at hpq
          subst hpq
          exact hacc q hq ev hev
      · rcases List.mem_append.mp hp with hq | hq
        · exact hacc p hq ev hev
        · rcases List.mem_singleton.mp hq with rfl
          by_cases hre : r.preferred_event = ""
          · rw [if_pos hre] at hev
            cases hev
          · rw [if_neg hre] at hev
            rcases List.mem_singleton.mp hev with rfl
            exact ⟨r, hrmem, rfl⟩
  exact H records [] (fun r h => h) (by intro p hp; cases hp)

/-! ## C10: whitespace handling of event labels -/

/-- C10: labels are stripped before tallying and display. A stored label
that strips to the empty string (a blank or whitespace-only submission)
contributes no vote; every stored label is the stripped form of a submitted
label; the voter output is the spec-side choice over the stripped labels
(whose displayed winner is the earliest stored occurrence of the winning
key); and a displayed winner is always the whitespace-stripped form of some
submitted label, so surrounding whitespace never appears in the output. -/
theorem C10_label_stripping :
    (∀ (votes : List (String × Nat)) (r : Record),
      pstrip r.preferred_event = "" →
      voteStep votes (pstrip r.preferred_event) = votes) ∧
    (∀ records : List Record, ∀ p ∈ groupByPerson records, ∀ ev ∈ p.events,
      ∃ r ∈ records, ev = pstrip r.preferred_event) ∧
    (∀ people : List PersonInfo,
      eventVote people = specEventChoice (labelsOf (people.flatMap PersonInfo.events))) ∧
    (∀ (records : List Record) (s : Suggestion),
      compute_suggestion records = some s →
      s.event = "No clear winner" ∨
        ∃ r ∈ records, s.event = pstrip r.preferred_event) := by
  refine ⟨?_, events_from_records, eventVote_eq_spec, ?_⟩
  · intro votes r h
    rw [h]
    have h0 : pstrip "" = "" := rfl
    rw [voteStep, if_pos h0]
  · intro records s h
    obtain ⟨-, -, -, -, best, hpick, -, -, -, -, hev⟩ := compute_suggestion_some_elim h
    rw [hev, eventVote_eq_spec]
    cases hd : specDisplay
        (labelsOf ((groupByPerson records).flatMap PersonInfo.events)) with
    | none =>
      left
      rw [specEventChoice, hd]
    | some lab =>
      right
      have hse : specEventChoice
          (labelsOf ((groupByPerson records).flatMap PersonInfo.events)) = lab := by
        rw [specEventChoice, hd]
      rw [specDisplay] at hd
      rcases Option.bind_eq_some.mp hd with ⟨k, hk, hfind⟩
      have hlabmem := List.mem_of_find?_eq_some hfind
      rw [labelsOf] at hlabmem
      have hlab2 := List.mem_of_mem_filter hlabmem
      rcases List.mem_map.mp hlab2 with ⟨ev, hevmem, hevlab⟩
      rcases List.mem_flatMap.mp hevmem with ⟨p, hp, hevp⟩
      rcases events_from_records records p hp ev hevp with ⟨r, hr, hevr⟩
      refine ⟨r, hr, ?_⟩
      rw [hse, ← hevlab, hevr, pstrip_idem]

/-- One person whose submitted label carries surrounding whitespace. -/
def wsRecords : List Record :=
  [{ name := "Eve", start_time := 540, end_time := 600,
     preferred_event := "  Tea Party  " }]

/-- A record whose label is whitespace only. -/
def blankRec : Record :=
  { name := "Zoe", start_time := 540, end_time := 600, preferred_event := "   " }

/-- Witness for C10: the blank label of blankRec adds no vote, and on
wsRecords the displayed event is the stripped submitted label. -/
theorem C10_witness :
    voteStep [] (pstrip blankRec.preferred_event) = [] ∧
    ("Tea Party" = "No clear winner" ∨
      ∃ r ∈ wsRecords, "Tea Party" = pstrip r.preferred_event) := by
  constructor
  · exact C10_label_stripping.1 [] blankRec (by decide)
  · refine C10_label_stripping.2.2.2 wsRecords
      { max_free := 1, total_people := 1, start := 540, endTime := 600,
        event := "Tea Party" } ?_
    rw [compute_suggestion]
    simp only [bestBlocksOf, maxFreeOf, freeCountsOf, timelineOf, buildTimeline_eq_range]
    decide

/-! ## C8: two people with disjoint intervals -/

theorem groupByPerson_names_nodup (records : List Record) :
    ((groupByPerson records).map PersonInfo.name).Nodup := by
  rw [groupByPerson_names]
  exact nodup_firstOccs _

/-- No slot of one person overlaps a slot of a differently named person
(half-open intervals). -/
def crossDisjoint (people : List PersonInfo) : Prop :=
  ∀ p ∈ people, ∀ q ∈ people, p.name ≠ q.name →
    ∀ s1 ∈ p.slots, ∀ s2 ∈ q.slots, s1.2 ≤ s2.1 ∨ s2.2 ≤ s1.1

/-- Two people: Amy free 09:00-10:00 (60 minutes), Bill free 10:10-11:15
(65 minutes); the intervals are disjoint. -/
def cex8Records : List Record :=
  [{ name := "Amy", start_time := 540, end_time := 600, preferred_event := "" },
   { name := "Bill", start_time := 610, end_time := 675, preferred_event := "" }]

/-- C8 as stated is false: on cex8Records the two people have disjoint
intervals and Bill's interval (610-675) is the longer one, but the window
is clipped to the 30-minute grid anchored at 540, so Bill contributes a
single grid step (630-660) while Amy contributes the block 540-600; the
code therefore returns 540-600, not Bill's longer individual interval. -/
theorem C8_counterexample_grid_clipping :
    (groupByPerson cex8Records).length = 2 ∧
    crossDisjoint (groupByPerson cex8Records) ∧
    600 - 540 < 675 - 610 ∧
    (compute_suggestion cex8Records).map (fun s => (s.start, s.endTime))
      = some (540, 600) ∧
    some (540, 600) ≠ some (610, 675) := by
  refine ⟨by decide, ?_, by decide, ?_, by decide⟩
  · unfold crossDisjoint
    decide
  · rw [compute_suggestion]
    simp only [bestBlocksOf, maxFreeOf, freeCountsOf, timelineOf, buildTimeline_eq_range]
    decide

/-- C8 amended: for two people whose intervals are pairwise disjoint across
the people, no timeline step has coverage above 1, and the chosen window is
the earliest-longest block of consecutive grid steps each fully covered by
one of the two people (not, in general, the longer raw interval, whose
endpoints need not lie on the grid). -/
theorem C8_two_disjoint_people (records : List Record)
    (h2 : (groupByPerson records).length = 2)
    (hdisj : crossDisjoint (groupByPerson records)) :
    (∀ t : Nat, freeCount (groupByPerson records) t ≤ 1) ∧
    (∀ s : Suggestion, compute_suggestion records = some s →
      some (s.start, s.endTime) = selectEarliestLongest (bestBlocksOf records)) := by
  constructor
  · intro t
    cases hP : groupByPerson records with
    | nil => rw [hP] at h2; simp at h2
    | cons p rest =>
      cases rest with
      | nil => rw [hP] at h2; simp at h2
      | cons q rest2 =>
        cases rest2 with
        | cons x xs =>
          rw [hP] at h2
          simp [List.length_cons] at h2
        | nil =>
          have hnames := groupByPerson_names_nodup records
          rw [hP] at hnames
          have hne : p.name ≠ q.name := by
            simp only [List.map_cons, List.map_nil, List.nodup_cons] at hnames
            intro he
            exact hnames.1 (by rw [he]; exact List.mem_singleton.mpr rfl)
          by_cases hbp : personFree p t = true
          · by_cases hbq : personFree q t = true
            · exfalso
              rcases (personFree_iff p t).mp hbp with ⟨s1, hs1, h11, h12⟩
              rcases (personFree_iff q t).mp hbq with ⟨s2, hs2, h21, h22⟩
              have hpm : p ∈ groupByPerson records := by
                rw [hP]; exact List.mem_cons_self _ _
              have hqm : q ∈ groupByPerson records := by
                rw [hP]; exact List.mem_cons_of_mem _ (List.mem_cons_self _ _)
              have hd := hdisj p hpm q hqm hne s1 hs1 s2 hs2
              have h30 : TIME_STEP_MINUTES = 30 := rfl
              rw [h30] at h12 h22
              omega
            · rw [freeCount]
              simp [List.countP_cons, hbp, hbq]
          · rw [freeCount]
            by_cases hbq : personFree q t = true
            · simp [List.countP_cons, hbp, hbq]
            · simp [List.countP_cons, hbp, hbq]
  · intro s h
    exact window_is_selectEarliestLongest h

/-- Witness for the amended C8 at the counterexample input. -/
theorem C8_witness :
    freeCount (groupByPerson cex8Records) 540 ≤ 1 ∧
    some (540, 600) = selectEarliestLongest (bestBlocksOf cex8Records) := by
  have hc := C8_two_disjoint_people cex8Records (by decide)
    (by unfold crossDisjoint; decide)
  refine ⟨hc.1 540, ?_⟩
  refine hc.2
    { max_free := 1, total_people := 2, start := 540, endTime := 600,
      event := "No clear winner" } ?_
  rw [compute_suggestion]
  simp only [bestBlocksOf, maxFreeOf, freeCountsOf, timelineOf, buildTimeline_eq_range]
  decide
